import Mathlib

/-!
Verification of the AffoDent tooth-shade matcher (`src/app.py`).

The program is embedded shallowly:

* An RGB or Lab triple is a `Nat × Nat × Nat` of 8-bit channel values.
* `rgb_to_lab` models `cv2.cvtColor(np.uint8([[rgb]]), cv2.COLOR_RGB2LAB)`.
  The OpenCV conversion itself is library code that is not part of this
  repository, so it is modelled from the specification (§4.2): the standard
  sRGB → XYZ → Lab chain with the D65 reference white and the standard
  piecewise companding, quantised to unsigned 8-bit output channels
  (`L*255/100`, `a+128`, `b+128`, saturated to `0..255`).  All arithmetic is
  exact integer fixed-point at scale `10^12`; the fractional exponents
  (`x^(12/5)` for the sRGB gamma, `t^(1/3)` for the Lab companding) are
  computed by exact integer root extraction.
* `find_closest_shade` is the literal loop of `app.py` lines 46-54.  The two
  Lab values it subtracts are numpy `uint8` arrays, so the per-channel
  difference wraps modulo 256 (`u8sub`).  `np.linalg.norm` followed by the
  float comparison `dist < min_dist` is modelled by comparing the integer
  sums of squared wrapped differences: the square root is strictly monotone
  and these integers are at most `3 * 255^2`, far below the range where IEEE
  double rounding could merge two distinct square roots, so the comparison
  of the modelled squared distances is equivalent to the program's float
  comparison.  The initial `min_dist = float("inf")` is modelled by `none`.
* `save_patient_data` (lines 86-93) acts on the decoded contents of
  `records.txt`, modelled as a `List Record`; `load_patient_data` is the
  identity on that decoded list.
* The submission handler's center sample (line 118) and the history search
  filter (line 161) are embedded over rectangular images as lists of rows
  and over decoded record lists.
-/

set_option maxRecDepth 100000

namespace ShadeApp

abbrev RGB := Nat × Nat × Nat

abbrev Lab := Nat × Nat × Nat

/-- Wrapping subtraction of 8-bit values: numpy `uint8` arithmetic reduces
the difference modulo 256.  For `a b < 256` this is `(a - b) mod 256`. -/
def u8sub (a b : Nat) : Nat := (a + 256 - b) % 256

/-- Fixed-point scale used by the exact Lab model. -/
def labScale : Nat := 10 ^ 12

/-- Binary search for the integer `k`-th root, structural in the fuel. -/
def nrootAux (k N : Nat) : Nat → Nat → Nat → Nat
  | 0, lo, _ => lo
  | fuel + 1, lo, hi =>
    if hi ≤ lo + 1 then lo
    else
      let mid := (lo + hi) / 2
      if mid ^ k ≤ N then nrootAux k N fuel mid hi else nrootAux k N fuel lo mid

/-- Integer `k`-th root: the largest `m ≤ 2^220` with `m ^ k ≤ N`. -/
def nroot (k N : Nat) : Nat := nrootAux k N 221 0 (2 ^ 220)

/-- Modelled from the spec: sRGB linearisation of one 8-bit channel, scaled
by `labScale`.  For `c/255 ≤ 0.04045` the linear branch `x/12.92`, otherwise
`((x + 0.055)/1.055) ^ 2.4`; the exponent `2.4 = 12/5` is computed exactly as
an integer fifth root. -/
def linS (c : Nat) : Nat :=
  if c ≤ 10 then 10 * c * labScale / 32946
  else nroot 5 ((40 * c + 561) ^ 12 * labScale ^ 5 / 10761 ^ 12)

/-- Modelled from the spec: the piecewise Lab companding function `f`, on
`labScale`-scaled input and output: `t ^ (1/3)` above the CIE threshold
`0.008856`, else `7.787 t + 16/116`. -/
def labF (t : Nat) : Nat :=
  if 8856 * (labScale / 10 ^ 6) < t then nroot 3 (t * labScale ^ 2)
  else 7787 * t / 1000 + 16 * labScale / 116

/-- Round-half-up division on `Nat`. -/
def roundDiv (a b : Nat) : Nat := (2 * a + b) / (2 * b)

/-- Round-half-up division of an `Int` by a positive `Int` (floor of
`(2a + b) / 2b`, as Python's `//`). -/
def roundDivI (a b : Int) : Int := Int.ediv (2 * a + b) (2 * b)

/-- Saturate an integer into an 8-bit channel. -/
def clampU8 (z : Int) : Nat := (min 255 (max 0 z)).toNat

/-- Modelled from the spec: `rgb_to_lab` of `app.py` lines 41-44.  The body
of `cv2.cvtColor(..., COLOR_RGB2LAB)` is not in this repository; following
§4.2 it is the standard sRGB → XYZ → Lab chain (D65 white point
`Xn = 0.950456`, `Zn = 1.088754`, matrix of the standard `sRGB2XYZ`
coefficients), with 8-bit output scaling `L * 255/100`, `a + 128`,
`b + 128`, each channel saturated to `0..255`. -/
def rgb_to_lab (rgb : RGB) : Lab :=
  let r := linS rgb.1
  let g := linS rgb.2.1
  let b := linS rgb.2.2
  let X := (412453 * r + 357580 * g + 180423 * b) / 10 ^ 6
  let Y := (212671 * r + 715160 * g + 72169 * b) / 10 ^ 6
  let Z := (19334 * r + 119193 * g + 950227 * b) / 10 ^ 6
  let x := X * 10 ^ 6 / 950456
  let z := Z * 10 ^ 6 / 1088754
  let fy := labF Y
  let L8 : Nat :=
    if 8856 * (labScale / 10 ^ 6) < Y then
      roundDiv (255 * (116 * fy - 16 * labScale)) (100 * labScale)
    else roundDiv (255 * 9033 * Y) (1000 * (100 * labScale))
  let a8 : Int := roundDivI (500 * ((labF x : Int) - (fy : Int))) (labScale : Int) + 128
  let b8 : Int := roundDivI (200 * ((fy : Int) - (labF z : Int))) (labScale : Int) + 128
  (min L8 255, clampU8 a8, clampU8 b8)

/-- The squared distance the program computes at `app.py` line 51: numpy
subtracts the two `uint8` Lab vectors with wraparound and takes the
Euclidean norm; comparisons of those norms coincide with comparisons of
these integer sums of squares. -/
def labDistSq (a b : Lab) : Nat :=
  u8sub a.1 b.1 ^ 2 + u8sub a.2.1 b.2.1 ^ 2 + u8sub a.2.2 b.2.2 ^ 2

/-- Comparison `dist < min_dist` where `min_dist = float("inf")` is `none`. -/
def distLt (d : Nat) : Option Nat → Bool
  | none => true
  | some m => d < m

/-- The loop of `find_closest_shade`, `app.py` lines 49-53. -/
def find_closest_loop (input_lab : Lab) :
    List (String × RGB) → Option String → Option Nat → Option String
  | [], closest, _ => closest
  | (shade, ref_rgb) :: rest, closest, min_dist =>
    let ref_lab := rgb_to_lab ref_rgb
    let dist := labDistSq input_lab ref_lab
    if distLt dist min_dist then find_closest_loop input_lab rest (some shade) (some dist)
    else find_closest_loop input_lab rest closest min_dist

/-- Function `find_closest_shade` of `app.py` lines 46-54; the dict is a list of
key-value pairs in insertion order. -/
def find_closest_shade (input_rgb : RGB) (system_dict : List (String × RGB)) :
    Option String :=
  find_closest_loop (rgb_to_lab input_rgb) system_dict none none

/-- Table `vita_classical`, `app.py` lines 17-21. -/
def vita_classical : List (String × RGB) :=
  [("A1", (255, 240, 220)), ("A2", (240, 224, 200)), ("A3", (225, 205, 185)),
   ("A3.5", (210, 190, 170)), ("B1", (250, 235, 210)), ("B2", (235, 215, 190)),
   ("C1", (220, 200, 180)), ("C2", (205, 185, 165)), ("D2", (200, 180, 160))]

/-- Table `ivoclar_chromascop`, `app.py` lines 28-31. -/
def ivoclar_chromascop : List (String × RGB) :=
  [("100", (255, 240, 220)), ("200", (245, 225, 205)), ("300", (230, 210, 190)),
   ("400", (215, 195, 175)), ("500", (200, 180, 160))]

/-- A triple is a valid 8-bit RGB sample. -/
def validRGB (c : RGB) : Prop := c.1 ≤ 255 ∧ c.2.1 ≤ 255 ∧ c.2.2 ≤ 255

instance (c : RGB) : Decidable (validRGB c) := by unfold validRGB; infer_instance

/-- The actual squared Euclidean distance between two Lab triples, with
signed channel differences — the distance the spec's words describe. -/
def trueDistSq (a b : Lab) : Nat :=
  ((a.1 : Int) - (b.1 : Int)).natAbs ^ 2 + ((a.2.1 : Int) - (b.2.1 : Int)).natAbs ^ 2 +
    ((a.2.2 : Int) - (b.2.2 : Int)).natAbs ^ 2

/-- Squared wrapped distance from sample `c` to a table entry, exactly as
the program computes it. -/
def wrappedDistTo (c : RGB) (p : String × RGB) : Nat :=
  labDistSq (rgb_to_lab c) (rgb_to_lab p.2)

/-- Squared true Euclidean Lab distance from sample `c` to a table entry. -/
def trueDistTo (c : RGB) (p : String × RGB) : Nat :=
  trueDistSq (rgb_to_lab c) (rgb_to_lab p.2)

/-- Minimum of the wrapped distances over a table (0 for the empty table). -/
def minWrapped (c : RGB) : List (String × RGB) → Nat
  | [] => 0
  | q :: t => (t.map (wrappedDistTo c)).foldl Nat.min (wrappedDistTo c q)

/-- Minimum of the true Lab distances over a table (0 for the empty table). -/
def minTrue (c : RGB) : List (String × RGB) → Nat
  | [] => 0
  | q :: t => (t.map (trueDistTo c)).foldl Nat.min (trueDistTo c q)

/-- Stated from the spec's words: the first label, in insertion order,
whose converted Lab value minimises the wrapped distance to the sample. -/
def firstMinWrapped (c : RGB) (T : List (String × RGB)) : Option String :=
  (T.find? fun p => wrappedDistTo c p == minWrapped c T).map Prod.fst

/-- Stated from the spec's words: the first label, in insertion order,
whose converted Lab value minimises the true Euclidean distance to the
sample. -/
def firstMinTrue (c : RGB) (T : List (String × RGB)) : Option String :=
  (T.find? fun p => trueDistTo c p == minTrue c T).map Prod.fst

/-- A decoded patient record, the dictionary of `app.py` lines 142-151. -/
structure Record where
  name : String
  sex : String
  age : Nat
  results : List (String × Option String)
  manual : Option String
  image_path : String
  pdf_path : String
  timestamp : String
deriving DecidableEq

/-- Function `save_patient_data`, `app.py` lines 86-93, acting on the decoded
contents of `records.txt`: drop records with the saved name, prepend the
new record, keep the first 10, write back. -/
def save_patient_data (name : String) (data : Record) (file : List Record) :
    List Record :=
  let records := file
  let records := records.filter fun r => r.name != name
  let records := data :: records
  records.take 10

/-- One submission per record, each saved under the record's own name, as
the handler does at `app.py` lines 142-151; the store starts empty. -/
def save_seq (subs : List Record) : List Record :=
  subs.foldl (fun file r => save_patient_data r.name r file) []

/-- The stored records that survive a save under name `n` before
truncation: exactly those whose patient name differs from `n`, in store
order.  Stated with the propositional `≠`, independently of the code's
Boolean `!=` filter. -/
def keptRecords (n : String) (recs : List Record) : List Record :=
  recs.filter fun r => decide (r.name ≠ n)

/-- Lower-casing of a string, per character, modelling `str.lower()` on the
ASCII names the app handles. -/
def lowerStr (s : String) : List Char := s.data.map Char.toLower

/-- Whether `needle` is a leading segment of `hay` (Boolean). -/
def isPrefixChars : List Char → List Char → Bool
  | [], _ => true
  | _ :: _, [] => false
  | a :: as, b :: bs => a == b && isPrefixChars as bs

/-- Whether `needle` occurs contiguously in `hay`: Python's `needle in hay`. -/
def containsChars (needle : List Char) : List Char → Bool
  | [] => isPrefixChars needle []
  | c :: t => isPrefixChars needle (c :: t) || containsChars needle t

/-- The history search, `app.py` line 161:
`[r for r in records if search_query.lower() in r["name"].lower()]`. -/
def search_filter (records : List Record) (search_query : String) : List Record :=
  records.filter fun r => containsChars (lowerStr search_query) (lowerStr r.name)

/-- The query occurs in the record's patient name, case-insensitively —
the spec's words for the search condition. -/
def MatchesQuery (q : String) (r : Record) : Prop :=
  ∃ pre post, lowerStr r.name = pre ++ lowerStr q ++ post

/-- A decoded image: a list of pixel rows, as `np.array` of a PIL RGB
image, indexed row first. -/
abbrev Image := List (List RGB)

/-- The submission handler's sample, `app.py` lines 117-118:
`h, w = img_array.shape[:2]; center_rgb = tuple(img_array[h//2, w//2])`. -/
def center_rgb (img : Image) : RGB :=
  let h := img.length
  let w := (img.headD []).length
  (img.getD (h / 2) []).getD (w / 2) (0, 0, 0)

/-- Indexing a pixel with in-bounds evidence. -/
def pixelAt (img : Image) (i j : Nat) (hi : i < img.length)
    (hj : j < (img.get ⟨i, hi⟩).length) : RGB :=
  (img.get ⟨i, hi⟩).get ⟨j, hj⟩

/-- A concrete record used in counterexamples and witnesses. -/
def mkRec (nm ts : String) : Record :=
  ⟨nm, "Other", 0, [], none, "img.jpg", "rep.pdf", ts⟩

/-- Eleven submissions that all carry the same patient name. -/
def elevenSame : List Record :=
  ["t01", "t02", "t03", "t04", "t05", "t06", "t07", "t08", "t09", "t10",
   "t11"].map (mkRec "Alice")

/-- Twelve submissions with pairwise-distinct patient names. -/
def twelveDistinct : List Record :=
  ["P01", "P02", "P03", "P04", "P05", "P06", "P07", "P08", "P09", "P10",
   "P11", "P12"].map fun n => mkRec n "t"

theorem foldl_min_le (l : List Nat) : ∀ a : Nat, l.foldl Nat.min a ≤ a := by
  induction l with
  | nil => intro a; exact Nat.le_refl a
  | cons x t ih =>
    intro a
    calc (x :: t).foldl Nat.min a = t.foldl Nat.min (Nat.min a x) := rfl
      _ ≤ Nat.min a x := ih _
      _ ≤ a := Nat.min_le_left _ _

theorem foldl_min_le_mem (l : List Nat) :
    ∀ (a x : Nat), x ∈ l → l.foldl Nat.min a ≤ x := by
  induction l with
  | nil => intro a x hx; cases hx
  | cons y t ih =>
    intro a x hx
    rcases List.mem_cons.mp hx with h | h
    · subst h
      calc (x :: t).foldl Nat.min a = t.foldl Nat.min (Nat.min a x) := rfl
        _ ≤ Nat.min a x := foldl_min_le t _
        _ ≤ x := Nat.min_le_right _ _
    · exact ih (Nat.min a y) x h

theorem u8sub_self (x : Nat) : u8sub x x = 0 := by unfold u8sub; omega

theorem u8sub_int (x y : Nat) (hx : x ≤ 255) (hy : y ≤ 255) :
    (u8sub x y : Int) = ((x : Int) - (y : Int)) % 256 := by
  unfold u8sub; omega

theorem u8sub_ne_zero (x y : Nat) (hx : x ≤ 255) (hy : y ≤ 255) (hne : x ≠ y) :
    u8sub x y ≠ 0 := by
  unfold u8sub; omega

theorem labDistSq_self (a : Lab) : labDistSq a a = 0 := by
  unfold labDistSq
  rw [u8sub_self, u8sub_self, u8sub_self]
  rfl

theorem clampU8_le (z : Int) : clampU8 z ≤ 255 := by
  unfold clampU8
  have h : min 255 (max 0 z) ≤ (255 : Int) := min_le_left _ _
  omega

theorem rgb_to_lab_le (c : RGB) :
    (rgb_to_lab c).1 ≤ 255 ∧ (rgb_to_lab c).2.1 ≤ 255 ∧ (rgb_to_lab c).2.2 ≤ 255 := by
  unfold rgb_to_lab
  refine ⟨Nat.min_le_right _ _, clampU8_le _, clampU8_le _⟩

theorem labDistSq_eq_zero (a b : Lab) (ha1 : a.1 ≤ 255) (ha2 : a.2.1 ≤ 255)
    (ha3 : a.2.2 ≤ 255) (hb1 : b.1 ≤ 255) (hb2 : b.2.1 ≤ 255) (hb3 : b.2.2 ≤ 255)
    (h : labDistSq a b = 0) : a = b := by
  obtain ⟨a1, a2, a3⟩ := a
  obtain ⟨b1, b2, b3⟩ := b
  unfold labDistSq at h
  simp only at h ha1 ha2 ha3 hb1 hb2 hb3
  have h1 : u8sub a1 b1 = 0 := by
    have := Nat.pow_eq_zero.mp (by omega : u8sub a1 b1 ^ 2 = 0)
    omega
  have h2 : u8sub a2 b2 = 0 := by
    have := Nat.pow_eq_zero.mp (by omega : u8sub a2 b2 ^ 2 = 0)
    omega
  have h3 : u8sub a3 b3 = 0 := by
    have := Nat.pow_eq_zero.mp (by omega : u8sub a3 b3 ^ 2 = 0)
    omega
  have e1 : a1 = b1 := by
    by_contra hne; exact u8sub_ne_zero a1 b1 ha1 hb1 hne h1
  have e2 : a2 = b2 := by
    by_contra hne; exact u8sub_ne_zero a2 b2 ha2 hb2 hne h2
  have e3 : a3 = b3 := by
    by_contra hne; exact u8sub_ne_zero a3 b3 ha3 hb3 hne h3
  simp [e1, e2, e3]

theorem find?_first_true {α : Type} (p : α → Bool) (l₁ l₂ : List α) (e : α)
    (h₁ : ∀ x ∈ l₁, p x = false) (he : p e = true) :
    (l₁ ++ e :: l₂).find? p = some e := by
  rw [List.find?_append]
  have hn : l₁.find? p = none := by
    rw [List.find?_eq_none]
    intro x hx
    simp [h₁ x hx]
  rw [hn, List.find?_cons_of_pos _ he]
  rfl

theorem natMin_right {a b : Nat} (h : b ≤ a) : Nat.min a b = b := by
  rw [Nat.min_eq_min]; omega

theorem natMin_left {a b : Nat} (h : a ≤ b) : Nat.min a b = a := by
  rw [Nat.min_eq_min]; omega

theorem loop_eq (il : Lab) :
    ∀ (lst : List (String × RGB)) (best : String) (bd : Nat),
      find_closest_loop il lst (some best) (some bd) =
        if (lst.map fun p => labDistSq il (rgb_to_lab p.2)).foldl Nat.min bd < bd then
          (lst.find? fun p =>
            labDistSq il (rgb_to_lab p.2) ==
              (lst.map fun p => labDistSq il (rgb_to_lab p.2)).foldl Nat.min bd).map
            Prod.fst
        else some best := by
  intro lst
  induction lst with
  | nil =>
    intro best bd
    simp [find_closest_loop]
  | cons q t ih =>
    obtain ⟨shade, ref⟩ := q
    intro best bd
    simp only [find_closest_loop, distLt, List.map_cons, List.foldl_cons,
      decide_eq_true_eq]
    by_cases h : labDistSq il (rgb_to_lab ref) < bd
    · rw [if_pos h, natMin_right (Nat.le_of_lt h), ih]
      by_cases h2 :
          (t.map fun p => labDistSq il (rgb_to_lab p.2)).foldl Nat.min
              (labDistSq il (rgb_to_lab ref)) <
            labDistSq il (rgb_to_lab ref)
      · rw [if_pos h2, if_pos (Nat.lt_trans h2 h), List.find?_cons_of_neg]
        simp only [beq_iff_eq]
        omega
      · have hle :
            (t.map fun p => labDistSq il (rgb_to_lab p.2)).foldl Nat.min
                (labDistSq il (rgb_to_lab ref)) ≤
              labDistSq il (rgb_to_lab ref) :=
          foldl_min_le _ _
        have heq :
            (t.map fun p => labDistSq il (rgb_to_lab p.2)).foldl Nat.min
                (labDistSq il (rgb_to_lab ref)) =
              labDistSq il (rgb_to_lab ref) := Nat.le_antisymm hle (Nat.le_of_not_lt h2)
        rw [if_neg h2, if_pos (Nat.lt_of_le_of_lt hle h), List.find?_cons_of_pos]
        · rfl
        · simp [heq]
    · rw [if_neg h, natMin_left (Nat.le_of_not_lt h), ih]
      by_cases h2 :
          (t.map fun p => labDistSq il (rgb_to_lab p.2)).foldl Nat.min bd < bd
      · rw [if_pos h2, if_pos h2, List.find?_cons_of_neg]
        simp only [beq_iff_eq]
        omega
      · rw [if_neg h2, if_neg h2]

theorem find_eq_firstMin (c : RGB) (T : List (String × RGB)) (hT : T ≠ []) :
    find_closest_shade c T = firstMinWrapped c T := by
  cases T with
  | nil => exact absurd rfl hT
  | cons q t =>
    obtain ⟨shade, ref⟩ := q
    have hstep :
        find_closest_shade c ((shade, ref) :: t) =
          find_closest_loop (rgb_to_lab c) t (some shade)
            (some (labDistSq (rgb_to_lab c) (rgb_to_lab ref))) := by
      simp [find_closest_shade, find_closest_loop, distLt]
    rw [hstep, loop_eq]
    unfold firstMinWrapped minWrapped wrappedDistTo
    simp only
    by_cases h2 :
        (t.map fun p => labDistSq (rgb_to_lab c) (rgb_to_lab p.2)).foldl Nat.min
            (labDistSq (rgb_to_lab c) (rgb_to_lab ref)) <
          labDistSq (rgb_to_lab c) (rgb_to_lab ref)
    · rw [if_pos h2, List.find?_cons_of_neg]
      simp only [beq_iff_eq]
      omega
    · have hle :
          (t.map fun p => labDistSq (rgb_to_lab c) (rgb_to_lab p.2)).foldl Nat.min
              (labDistSq (rgb_to_lab c) (rgb_to_lab ref)) ≤
            labDistSq (rgb_to_lab c) (rgb_to_lab ref) :=
        foldl_min_le _ _
      have heq :
          (t.map fun p => labDistSq (rgb_to_lab c) (rgb_to_lab p.2)).foldl Nat.min
              (labDistSq (rgb_to_lab c) (rgb_to_lab ref)) =
            labDistSq (rgb_to_lab c) (rgb_to_lab ref) :=
        Nat.le_antisymm hle (Nat.le_of_not_lt h2)
      rw [if_neg h2, List.find?_cons_of_pos]
      · rfl
      · simp [heq]

theorem minWrapped_le_mem (c : RGB) (T : List (String × RGB)) (p : String × RGB)
    (hp : p ∈ T) : minWrapped c T ≤ wrappedDistTo c p := by
  cases T with
  | nil => cases hp
  | cons q t =>
    unfold minWrapped
    rcases List.mem_cons.mp hp with h | h
    · subst h
      exact foldl_min_le _ _
    · exact foldl_min_le_mem _ _ _ (List.mem_map_of_mem _ h)

theorem loop_result (il : Lab) :
    ∀ (lst : List (String × RGB)) (closest : Option String) (md : Option Nat),
      find_closest_loop il lst closest md = closest ∨
        ∃ p ∈ lst, find_closest_loop il lst closest md = some p.1 := by
  intro lst
  induction lst with
  | nil => intro closest md; exact Or.inl rfl
  | cons q t ih =>
    obtain ⟨shade, ref⟩ := q
    intro closest md
    cases hb : distLt (labDistSq il (rgb_to_lab ref)) md with
    | false =>
      have hstep : find_closest_loop il ((shade, ref) :: t) closest md =
          find_closest_loop il t closest md := by
        simp [find_closest_loop, hb]
      rcases ih closest md with h | ⟨p, hp, he⟩
      · exact Or.inl (by rw [hstep, h])
      · exact Or.inr ⟨p, List.mem_cons_of_mem _ hp, by rw [hstep, he]⟩
    | true =>
      have hstep : find_closest_loop il ((shade, ref) :: t) closest md =
          find_closest_loop il t (some shade) (some (labDistSq il (rgb_to_lab ref))) := by
        simp [find_closest_loop, hb]
      rcases ih (some shade) (some (labDistSq il (rgb_to_lab ref))) with h | ⟨p, hp, he⟩
      · exact Or.inr ⟨(shade, ref), List.mem_cons_self _ _, by rw [hstep, h]⟩
      · exact Or.inr ⟨p, List.mem_cons_of_mem _ hp, by rw [hstep, he]⟩

theorem isPrefixChars_iff (n : List Char) :
    ∀ h : List Char, isPrefixChars n h = true ↔ ∃ post, h = n ++ post := by
  induction n with
  | nil =>
    intro h
    simp [isPrefixChars]
  | cons a as ih =>
    intro h
    cases h with
    | nil =>
      simp [isPrefixChars]
    | cons b bs =>
      simp only [isPrefixChars, Bool.and_eq_true, beq_iff_eq]
      constructor
      · rintro ⟨rfl, hp⟩
        obtain ⟨post, rfl⟩ := (ih bs).mp hp
        exact ⟨post, rfl⟩
      · rintro ⟨post, heq⟩
        injection heq with h1 h2
        subst h1
        exact ⟨rfl, (ih bs).mpr ⟨post, h2⟩⟩

theorem containsChars_iff (n : List Char) :
    ∀ h : List Char, containsChars n h = true ↔ ∃ pre post, h = pre ++ n ++ post := by
  intro h
  induction h with
  | nil =>
    rw [show containsChars n [] = isPrefixChars n [] from rfl, isPrefixChars_iff]
    constructor
    · rintro ⟨post, hp⟩
      exact ⟨[], post, hp⟩
    · rintro ⟨pre, post, hp⟩
      cases pre with
      | nil => exact ⟨post, hp⟩
      | cons x xs => simp at hp
  | cons c t ih =>
    rw [show containsChars n (c :: t) =
        (isPrefixChars n (c :: t) || containsChars n t) from rfl]
    simp only [Bool.or_eq_true, isPrefixChars_iff, ih]
    constructor
    · rintro (⟨post, hp⟩ | ⟨pre, post, hp⟩)
      · exact ⟨[], post, hp⟩
      · exact ⟨c :: pre, post, by simp [hp]⟩
    · rintro ⟨pre, post, hp⟩
      cases pre with
      | nil => exact Or.inl ⟨post, by simpa using hp⟩
      | cons x xs =>
        injection hp with h1 h2
        subst h1
        exact Or.inr ⟨xs, post, h2⟩

theorem save_eq (n : String) (d : Record) (recs : List Record) :
    save_patient_data n d recs = (d :: recs.filter fun r => r.name != n).take 10 := rfl

theorem save_length_le (n : String) (d : Record) (recs : List Record) :
    (save_patient_data n d recs).length ≤ 10 := by
  rw [save_eq]
  exact List.length_take_le _ _

theorem save_seq_append (l : List Record) (r : Record) :
    save_seq (l ++ [r]) = save_patient_data r.name r (save_seq l) := by
  unfold save_seq
  rw [List.foldl_append]
  rfl

theorem save_seq_length_le (subs : List Record) : (save_seq subs).length ≤ 10 := by
  induction subs using List.reverseRecOn with
  | nil => exact Nat.le_of_lt_succ (by decide)
  | append_singleton l r ih =>
    rw [save_seq_append]
    exact save_length_le _ _ _

theorem save_seq_nodup (subs : List Record)
    (h : (subs.map fun r => r.name).Nodup) :
    save_seq subs = subs.reverse.take 10 := by
  induction subs using List.reverseRecOn with
  | nil => rfl
  | append_singleton l r ih =>
    rw [show ((l ++ [r]).map fun x => x.name) =
        (l.map fun x => x.name) ++ [r.name] by simp] at h
    have hl : (l.map fun x => x.name).Nodup := (List.nodup_append.mp h).1
    have hdisj := (List.nodup_append.mp h).2.2
    have hnotmem : r.name ∉ l.map fun x => x.name :=
      fun hm => hdisj hm (List.mem_singleton_self _)
    rw [save_seq_append, ih hl, save_eq]
    have hfilter : (l.reverse.take 10).filter (fun x => x.name != r.name) =
        l.reverse.take 10 := by
      apply List.filter_eq_self.mpr
      intro a ha
      have hmem : a ∈ l := List.mem_reverse.mp (List.mem_of_mem_take ha)
      have hne : a.name ≠ r.name :=
        fun he => hnotmem (he ▸ List.mem_map_of_mem (fun x => x.name) hmem)
      simpa using hne
    rw [hfilter, List.reverse_append]
    simp [List.take_take]

theorem save_seq_sublist_reverse (subs : List Record) :
    (save_seq subs).Sublist subs.reverse := by
  induction subs using List.reverseRecOn with
  | nil => exact List.Sublist.refl _
  | append_singleton l r ih =>
    rw [save_seq_append, save_eq, List.reverse_append]
    have hstep : ((save_seq l).filter fun x => x.name != r.name).Sublist l.reverse :=
      (List.filter_sublist _).trans ih
    have h1 : ((r :: ((save_seq l).filter fun x => x.name != r.name)).take 10).Sublist
        (r :: ((save_seq l).filter fun x => x.name != r.name)) :=
      List.take_sublist _ _
    have h2 : (r :: ((save_seq l).filter fun x => x.name != r.name)).Sublist
        (r :: l.reverse) := hstep.cons₂ r
    simpa using h1.trans h2

theorem bne_eq_decide_ne (n : String) (a : Record) :
    (a.name != n) = decide (a.name ≠ n) := by
  by_cases h : a.name = n
  · simp [h]
  · simp [h]

/-- C1, counterexample: as stated — with "Euclidean distance" between the
converted Lab values — the claim is false at a concrete input.  On the
table `[("mid", (40,40,40)), ("white", (255,255,255))]` with sample
`(0,0,0)`, the first (and only) label of minimum Euclidean Lab distance is
`"mid"` (squared distance `41²` against `255²`), but the program returns
`"white"`, because the `uint8` subtraction wraps `0 - 255` to `1`. -/
theorem C1_counterexample :
    find_closest_shade (0, 0, 0) [("mid", (40, 40, 40)), ("white", (255, 255, 255))] =
      some "white" ∧
    firstMinTrue (0, 0, 0) [("mid", (40, 40, 40)), ("white", (255, 255, 255))] =
      some "mid" ∧
    find_closest_shade (0, 0, 0) [("mid", (40, 40, 40)), ("white", (255, 255, 255))] ≠
      firstMinTrue (0, 0, 0) [("mid", (40, 40, 40)), ("white", (255, 255, 255))] := by
  refine ⟨by decide, by decide, by decide⟩

/-- C1, amended: for every input RGB triple and every non-empty reference
table, `find_closest_shade` returns the first label, in the table's
insertion order, whose converted Lab value has minimum *wrapped* (uint8,
mod-256 per channel) Euclidean distance to the converted sample; an entry
replaces the current best only on strictly lower distance, so among
equidistant entries the earliest-seen label is returned. -/
theorem C1_amended_first_min_wrapped (c : RGB) (T : List (String × RGB))
    (hT : T ≠ []) : find_closest_shade c T = firstMinWrapped c T :=
  find_eq_firstMin c T hT

theorem C1_amended_witness :
    find_closest_shade (0, 0, 0) [("W", (5, 6, 7))] =
      firstMinWrapped (0, 0, 0) [("W", (5, 6, 7))] :=
  C1_amended_first_min_wrapped (0, 0, 0) [("W", (5, 6, 7))] (by decide)

/-- C2: evaluating the code at the spec's example.  Matching sample
`(228, 210, 190)` against the Ivoclar Chromascop table is required by the
spec to return `"300"` (the nearest entry in perceptual space) — and
indeed the first label of minimum true Euclidean Lab distance is `"300"` —
but the program returns `"100"`: the `uint8` Lab differences wrap modulo
256, giving `"300"` two wrapped channels (distance² `2·255²`) and `"100"`
one (distance² `230² + 2`). -/
theorem C2_code_behavior :
    find_closest_shade (228, 210, 190) ivoclar_chromascop = some "100" ∧
    firstMinTrue (228, 210, 190) ivoclar_chromascop = some "300" :=
  ⟨by decide, by decide⟩

/-- C3, counterexample: the table `[("X", (0,0,0)), ("Y", (1,0,0))]` has
pairwise-distinct reference colors and the sample `(1,0,0)` equals entry
`"Y"`'s reference RGB, yet the program returns `"X"`: both colors convert
to the same quantised Lab triple `(0,128,128)`, the earlier entry reaches
distance 0 first, and strict-less-than comparison keeps it. -/
theorem C3_counterexample :
    (([("X", ((0 : Nat), (0 : Nat), (0 : Nat))), ("Y", (1, 0, 0))].map
        Prod.snd).Nodup) ∧
    find_closest_shade (1, 0, 0) [("X", (0, 0, 0)), ("Y", (1, 0, 0))] = some "X" ∧
    ("X" : String) ≠ "Y" := by
  refine ⟨by decide, by decide, by decide⟩

/-- C3, amended: for every reference table whose entries have
pairwise-distinct *converted Lab values* and every sample RGB exactly equal
to some entry's reference RGB, `find_closest_shade` returns that entry's
label; in particular, matching `(255, 240, 220)` against the Vita Classical
table returns `"A1"`. -/
theorem C3_amended_exact_match :
    (∀ (T₁ T₂ : List (String × RGB)) (l : String) (c : RGB),
        ((T₁ ++ (l, c) :: T₂).map fun p => rgb_to_lab p.2).Nodup →
        find_closest_shade c (T₁ ++ (l, c) :: T₂) = some l) ∧
    find_closest_shade (255, 240, 220) vita_classical = some "A1" := by
  constructor
  · intro T₁ T₂ l c hnd
    have hT : T₁ ++ (l, c) :: T₂ ≠ [] := by
      intro h
      cases T₁ <;> simp at h
    rw [find_eq_firstMin c _ hT]
    unfold firstMinWrapped
    have hmem : (l, c) ∈ T₁ ++ (l, c) :: T₂ :=
      List.mem_append_right _ (List.mem_cons_self _ _)
    have hz : wrappedDistTo c (l, c) = 0 := labDistSq_self _
    have hM : minWrapped c (T₁ ++ (l, c) :: T₂) = 0 :=
      Nat.le_zero.mp (hz ▸ minWrapped_le_mem c _ _ hmem)
    rw [hM]
    rw [List.map_append, List.map_cons] at hnd
    have hdisj := (List.nodup_append.mp hnd).2.2
    have hfind : ((T₁ ++ (l, c) :: T₂).find? fun p => wrappedDistTo c p == 0) =
        some (l, c) := by
      apply find?_first_true
      · intro x hx
        have hlab : rgb_to_lab x.2 ≠ rgb_to_lab c := by
          intro heq
          exact hdisj (List.mem_map_of_mem _ hx)
            (heq ▸ List.mem_cons_self (rgb_to_lab (l, c).2) _)
        have hne : wrappedDistTo c x ≠ 0 := by
          intro h0
          refine hlab ?_
          refine (labDistSq_eq_zero (rgb_to_lab c) (rgb_to_lab x.2)
            (rgb_to_lab_le c).1 (rgb_to_lab_le c).2.1 (rgb_to_lab_le c).2.2
            (rgb_to_lab_le x.2).1 (rgb_to_lab_le x.2).2.1 (rgb_to_lab_le x.2).2.2
            h0).symm
        simpa using hne
      · simp [hz]
    rw [hfind]
    rfl
  · decide

theorem C3_amended_witness :
    find_closest_shade (0, 0, 0) [("Z", (0, 0, 0))] = some "Z" :=
  C3_amended_exact_match.1 [] [] "Z" (0, 0, 0) (by decide)

/-- C4, counterexample: as stated — "a persisted record is never updated;
the only record ever removed is the oldest, and only when the store would
exceed 10" — the claim is false: saving a record whose patient name equals
an existing record's name removes that existing record even though the
store holds a single record. -/
theorem C4_counterexample :
    save_patient_data "Alice" (mkRec "Alice" "t2") [mkRec "Alice" "t1"] =
      [mkRec "Alice" "t2"] ∧
    mkRec "Alice" "t1" ∉
      save_patient_data "Alice" (mkRec "Alice" "t2") [mkRec "Alice" "t1"] ∧
    mkRec "Alice" "t1" ≠ mkRec "Alice" "t2" ∧
    ([mkRec "Alice" "t1"] : List Record).length ≤ 10 := by
  refine ⟨by decide, by decide, by decide, by decide⟩

/-- C4, amended: a save removes exactly the stored records whose patient
name equals the saved record's name, then prepends the new record and
truncates to the 10 most recent: the new store is the new record followed
by the first 9 surviving records in store order (`keptRecords`, which holds
exactly the differently-named records, order preserved) — so beyond the
name match, records are removed only by that truncation.  When no stored
record carries the saved name and the store holds fewer than 10 records,
nothing is removed at all. -/
theorem C4_amended_save_frame (n : String) (d : Record) (recs : List Record) :
    save_patient_data n d recs = d :: (keptRecords n recs).take 9 ∧
    (save_patient_data n d recs).length ≤ 10 ∧
    (∀ r ∈ save_patient_data n d recs, r = d ∨ (r ∈ recs ∧ r.name ≠ n)) ∧
    (∀ r, r ∈ keptRecords n recs ↔ r ∈ recs ∧ r.name ≠ n) ∧
    (keptRecords n recs).Sublist recs ∧
    ((∀ r ∈ recs, r.name ≠ n) → recs.length < 10 →
      save_patient_data n d recs = d :: recs) := by
  have hkept : recs.filter (fun r => r.name != n) = keptRecords n recs :=
    List.filter_congr fun a _ => bne_eq_decide_ne n a
  refine ⟨?_, save_length_le n d recs, ?_, ?_, List.filter_sublist _, ?_⟩
  · rw [save_eq, List.take_succ_cons, hkept]
  · intro r hr
    rw [save_eq] at hr
    have hr' := List.take_subset _ _ hr
    rcases List.mem_cons.mp hr' with h | h
    · exact Or.inl h
    · rcases List.mem_filter.mp h with ⟨hmem, hname⟩
      exact Or.inr ⟨hmem, by simpa using hname⟩
  · intro r
    unfold keptRecords
    rw [List.mem_filter]
    simp
  · intro hnone hlen
    rw [save_eq]
    have hf : recs.filter (fun r => r.name != n) = recs :=
      List.filter_eq_self.mpr fun a ha => by simpa using hnone a ha
    rw [hf]
    exact List.take_of_length_le (by simp; omega)

theorem C4_amended_witness :
    save_patient_data "Bob" (mkRec "Bob" "t2") [mkRec "Alice" "t1"] =
      mkRec "Bob" "t2" :: [mkRec "Alice" "t1"] :=
  (C4_amended_save_frame "Bob" (mkRec "Bob" "t2") [mkRec "Alice" "t1"]).2.2.2.2.2
    (by decide) (by decide)

/-- C5, counterexample: as stated the claim is false: eleven saves that all
carry the same patient name leave a single record in the store — not the
ten most recent — because each save first removes the previous record of
that name. -/
theorem C5_counterexample :
    save_seq elevenSame = [mkRec "Alice" "t11"] ∧
    save_seq elevenSame ≠ elevenSame.reverse.take 10 := by
  refine ⟨by decide, by decide⟩

/-- C5, amended: after every sequence of saves the history store holds at
most 10 records in most-recent-first order — unconditionally, the store is
a sublist of the reversed save sequence, so its records appear in reverse
order of their saves; when the saved records carry pairwise-distinct
patient names the store holds exactly the most recent 10 in
most-recent-first order (`reverse` then `take 10`) — so 11 such saves keep
the 10 most recent and a 12th evicts the then-oldest. -/
theorem C5_amended_bounded_history :
    (∀ subs : List Record, (save_seq subs).length ≤ 10) ∧
    (∀ subs : List Record, (save_seq subs).Sublist subs.reverse) ∧
    (∀ subs : List Record, (subs.map fun r => r.name).Nodup →
      save_seq subs = subs.reverse.take 10) :=
  ⟨save_seq_length_le, save_seq_sublist_reverse, save_seq_nodup⟩

theorem C5_amended_witness :
    save_seq twelveDistinct = twelveDistinct.reverse.take 10 :=
  C5_amended_bounded_history.2.2 twelveDistinct (by decide)

/-- C6: for every valid RGB triple and every non-empty reference table,
`find_closest_shade` returns some label and that label is a key of the
table. -/
theorem C6_label_in_table (c : RGB) (T : List (String × RGB)) (hv : validRGB c)
    (hT : T ≠ []) : ∃ l, find_closest_shade c T = some l ∧ l ∈ T.map Prod.fst := by
  cases T with
  | nil => exact absurd rfl hT
  | cons q t =>
    obtain ⟨shade, ref⟩ := q
    have hstep : find_closest_shade c ((shade, ref) :: t) =
        find_closest_loop (rgb_to_lab c) t (some shade)
          (some (labDistSq (rgb_to_lab c) (rgb_to_lab ref))) := by
      simp [find_closest_shade, find_closest_loop, distLt]
    rcases loop_result (rgb_to_lab c) t (some shade)
        (some (labDistSq (rgb_to_lab c) (rgb_to_lab ref))) with h | ⟨p, hp, he⟩
    · exact ⟨shade, by rw [hstep, h],
        List.mem_map.mpr ⟨(shade, ref), List.mem_cons_self _ _, rfl⟩⟩
    · exact ⟨p.1, by rw [hstep, he],
        List.mem_map.mpr ⟨p, List.mem_cons_of_mem _ hp, rfl⟩⟩

theorem C6_witness :
    ∃ l, find_closest_shade (0, 0, 0) [("X", (12, 34, 56))] = some l ∧
      l ∈ ([("X", ((12 : Nat), (34 : Nat), (56 : Nat)))].map Prod.fst) :=
  C6_label_in_table (0, 0, 0) [("X", (12, 34, 56))] (by decide) (by decide)

/-- C7: for every decoded rectangular image of positive height `h` and
width `w`, the sampled color is exactly the pixel at row `h/2` and column
`w/2` — a single pixel, no aggregation. -/
theorem C7_center_pixel (img : Image) (h w : Nat) (hh : img.length = h)
    (hw : ∀ row ∈ img, row.length = w) (hpos : 0 < h) (wpos : 0 < w) :
    ∃ (hi : h / 2 < img.length) (hj : w / 2 < (img.get ⟨h / 2, hi⟩).length),
      center_rgb img = pixelAt img (h / 2) (w / 2) hi hj := by
  subst hh
  have hi : img.length / 2 < img.length := Nat.div_lt_self hpos (by omega)
  have hrow : (img.get ⟨img.length / 2, hi⟩).length = w := hw _ (List.get_mem img _ hi)
  have hj : w / 2 < (img.get ⟨img.length / 2, hi⟩).length := by
    rw [hrow]
    exact Nat.div_lt_self wpos (by omega)
  refine ⟨hi, hj, ?_⟩
  have hhead : (img.headD []).length = w := by
    cases img with
    | nil => simp at hpos
    | cons r t => exact hw r (List.mem_cons_self _ _)
  unfold center_rgb pixelAt
  simp only [hhead]
  rw [List.getD_eq_get _ _ hi, List.getD_eq_get _ _ hj]

theorem C7_witness :
    ∃ (hi : 2 / 2 <
        ([[((1 : Nat), (2 : Nat), (3 : Nat)), (4, 5, 6)],
          [(7, 8, 9), (10, 11, 12)]] : Image).length)
      (hj : 2 / 2 <
        (([[((1 : Nat), (2 : Nat), (3 : Nat)), (4, 5, 6)],
           [(7, 8, 9), (10, 11, 12)]] : Image).get ⟨2 / 2, hi⟩).length),
      center_rgb [[(1, 2, 3), (4, 5, 6)], [(7, 8, 9), (10, 11, 12)]] =
        pixelAt [[(1, 2, 3), (4, 5, 6)], [(7, 8, 9), (10, 11, 12)]] (2 / 2) (2 / 2)
          hi hj :=
  C7_center_pixel [[(1, 2, 3), (4, 5, 6)], [(7, 8, 9), (10, 11, 12)]] 2 2 rfl
    (by decide) (by decide) (by decide)

/-- C8: the history search returns exactly the records whose patient name
contains the query as a case-insensitive substring, preserving store
order; with no matching record it returns the empty list rather than
failing. -/
theorem C8_search_filter (records : List Record) (q : String) :
    (∀ r, r ∈ search_filter records q ↔ r ∈ records ∧ MatchesQuery q r) ∧
    (search_filter records q).Sublist records ∧
    ((∀ r ∈ records, ¬MatchesQuery q r) → search_filter records q = []) := by
  refine ⟨?_, List.filter_sublist _, ?_⟩
  · intro r
    unfold search_filter
    rw [List.mem_filter]
    constructor
    · rintro ⟨hm, hc⟩
      exact ⟨hm, (containsChars_iff _ _).mp hc⟩
    · rintro ⟨hm, hq⟩
      exact ⟨hm, (containsChars_iff _ _).mpr hq⟩
  · intro hnone
    unfold search_filter
    rw [List.filter_eq_nil_iff]
    intro r hr hc
    exact hnone r hr ((containsChars_iff _ _).mp hc)

theorem C8_witness :
    (mkRec "Alice" "t1" ∈ search_filter [mkRec "Alice" "t1"] "ali") ∧
    search_filter [mkRec "Alice" "t1"] "zzz" = [] := by
  constructor
  · exact ((C8_search_filter [mkRec "Alice" "t1"] "ali").1 (mkRec "Alice" "t1")).mpr
      ⟨by decide, ⟨[], ['c', 'e'], by decide⟩⟩
  · refine (C8_search_filter [mkRec "Alice" "t1"] "zzz").2.2 ?_
    intro r hr hM
    have hr' : r = mkRec "Alice" "t1" := List.mem_singleton.mp hr
    subst hr'
    have hc := (containsChars_iff (lowerStr "zzz")
      (lowerStr (mkRec "Alice" "t1").name)).mpr hM
    exact absurd hc (by decide)

/-- C9: the distance `find_closest_shade` computes is the Euclidean norm of
the per-channel differences of the unsigned 8-bit Lab values reduced
modulo 256 (the subtraction is performed on uint8 arrays); whenever a
sample channel is strictly below the reference channel the wrapped
difference differs from the signed difference, so the computed distance is
not in general the true Euclidean Lab distance. -/
theorem C9_wrapped_distance :
    (∀ a b : Lab, a.1 ≤ 255 → a.2.1 ≤ 255 → a.2.2 ≤ 255 → b.1 ≤ 255 →
        b.2.1 ≤ 255 → b.2.2 ≤ 255 →
        (labDistSq a b : Int) =
          (((a.1 : Int) - (b.1 : Int)) % 256) ^ 2 +
            (((a.2.1 : Int) - (b.2.1 : Int)) % 256) ^ 2 +
            (((a.2.2 : Int) - (b.2.2 : Int)) % 256) ^ 2) ∧
    (∀ x y : Nat, x ≤ 255 → y ≤ 255 → x < y →
        (u8sub x y : Int) ≠ (x : Int) - (y : Int)) ∧
    ¬(∀ c r : RGB, labDistSq (rgb_to_lab c) (rgb_to_lab r) =
        trueDistSq (rgb_to_lab c) (rgb_to_lab r)) := by
  refine ⟨?_, ?_, ?_⟩
  · intro a b h1 h2 h3 h4 h5 h6
    unfold labDistSq
    push_cast
    rw [u8sub_int _ _ h1 h4, u8sub_int _ _ h2 h5, u8sub_int _ _ h3 h6]
  · intro x y hx hy hlt
    unfold u8sub
    omega
  · intro hall
    exact absurd (hall (0, 0, 0) (255, 255, 255)) (by decide)

theorem C9_witness :
    ((labDistSq ((0 : Nat), (128 : Nat), (128 : Nat))
          ((255 : Nat), (128 : Nat), (128 : Nat)) : Int) =
        ((((0 : Nat) : Int) - ((255 : Nat) : Int)) % 256) ^ 2 +
          ((((128 : Nat) : Int) - ((128 : Nat) : Int)) % 256) ^ 2 +
          ((((128 : Nat) : Int) - ((128 : Nat) : Int)) % 256) ^ 2) ∧
    (u8sub 0 255 : Int) ≠ ((0 : Nat) : Int) - ((255 : Nat) : Int) :=
  ⟨C9_wrapped_distance.1 (0, 128, 128) (255, 128, 128) (by decide) (by decide)
      (by decide) (by decide) (by decide) (by decide),
    C9_wrapped_distance.2.1 0 255 (by decide) (by decide) (by decide)⟩

/-- C10: on an empty reference table `find_closest_shade` returns `none`
for every input: the loop body is never entered and the initial sentinel
is returned; no error is raised. -/
theorem C10_empty_table (input_rgb : RGB) :
    find_closest_shade input_rgb [] = none := rfl

end ShadeApp
